import Mathlib

/-!
Formal model of the date parser declared in dateparser.h: the character
reader (InputReader), the range helper Between with its derived field
predicates, and the three field composers (DayComposer, TimeComposer,
TimeZoneComposer), together with theorems about them.

Machine integers are modelled as Int (for C++ int / values) and Nat (for
indices and uint32_t character values); the unsigned cast inside Between is
made explicit as a remainder modulo 2^32.  The character-consuming loops of
InputReader are written with an explicit fuel argument; the reader always
calls them with fuel buffer.length + 1, which is shown to be enough.
-/

namespace DateParser

/-- Largest 32-bit signed integer (kMaxInt from the V8 globals). -/
def kMaxInt : Int := 2147483647

/-- Sentinel indicating a missing value (dateparser.h). -/
def kNone : Int := kMaxInt

/-- Maximal number of digits used to build the value of a numeral;
remaining digits are ignored (kMaxSignificantDigits). -/
def kMaxSignificantDigits : Nat := 9

/-- A value of C++ type int: a 32-bit signed integer. -/
def Int32 (z : Int) : Prop := -2147483648 ≤ z ∧ z < 2147483648

instance (z : Int) : Decidable (Int32 z) := inferInstanceAs (Decidable (_ ∧ _))

/-- The unsigned cast static_cast of a 32-bit value: remainder modulo 2^32. -/
def toUnsigned (z : Int) : Int := z % 4294967296

/-- Range testing (DateParser::Between): an unsigned comparison of (x - lo)
against (hi - lo), with the subtractions taken modulo 2^32. -/
def Between (x lo hi : Int) : Bool :=
  decide (toUnsigned (x - lo) ≤ toUnsigned (hi - lo))

/-- Character of buf at position i, or 0 past the end; this is exactly the
guarded read of InputReader::Next. -/
def charAt (buf : List Nat) (i : Nat) : Nat := buf.getD i 0

/-- The state of DateParser::InputReader: the immutable character buffer, the
int cursor index and the one-character uint32_t lookahead ch. -/
structure InputReader where
  buffer : List Nat
  index : Nat
  ch : Nat
  deriving DecidableEq

/-- Advance to the next character of the string (InputReader::Next). -/
def Next (r : InputReader) : InputReader :=
  { r with ch := charAt r.buffer r.index, index := r.index + 1 }

/-- The InputReader constructor: index 0, then one initial Next. -/
def mkReader (s : List Nat) : InputReader :=
  Next { buffer := s, index := 0, ch := 0 }

/-- Modelled from the spec: ASCII decimal digit classification
(IsDecimalDigit lives in char-predicates-inl.h, which is not under src/). -/
def IsDecimalDigit (c : Nat) : Bool := decide (48 ≤ c ∧ c ≤ 57)

/-- Modelled from the spec: lowercasing helper AsciiAlphaToLower from
char-predicates-inl.h (not under src/), the usual ASCII bit trick. -/
def AsciiAlphaToLower (c : Nat) : Nat := c ||| 32

/-- InputReader::IsAsciiDigit. -/
def InputReader.IsAsciiDigit (r : InputReader) : Bool := IsDecimalDigit r.ch

/-- InputReader::IsAsciiAlphaOrAbove: code point at least 65, the code of A. -/
def InputReader.IsAsciiAlphaOrAbove (r : InputReader) : Bool := decide (65 ≤ r.ch)

/-- InputReader::IsEnd: the lookahead is the end sentinel 0. -/
def InputReader.IsEnd (r : InputReader) : Bool := decide (r.ch = 0)

/-- Loop of InputReader::ReadUnsignedNumeral with explicit fuel: while the
lookahead is a digit, accumulate it into n if fewer than 9 digits were used,
and advance. -/
def ReadUnsignedNumeralAux (fuel : Nat) (r : InputReader) (n : Int) (i : Nat) :
    Int × InputReader :=
  match fuel with
  | 0 => (n, r)
  | Nat.succ f =>
    if r.IsAsciiDigit then
      ReadUnsignedNumeralAux f (Next r)
        (if i < kMaxSignificantDigits then n * 10 + ((r.ch : Int) - 48) else n)
        (i + 1)
    else (n, r)

/-- InputReader::ReadUnsignedNumeral; fuel buffer.length + 1 is enough for
every reachable reader state. -/
def ReadUnsignedNumeral (r : InputReader) : Int × InputReader :=
  ReadUnsignedNumeralAux (r.buffer.length + 1) r 0 0

/-- Loop of InputReader::ReadWord with explicit fuel: while the lookahead is
letter-or-above, write its lowercased form at position len of the caller
buffer when len is still inside it, and advance. -/
def ReadWordAux (fuel : Nat) (r : InputReader) (pre : List Nat) (len : Nat) :
    Nat × List Nat × InputReader :=
  match fuel with
  | 0 => (len, pre, r)
  | Nat.succ f =>
    if r.IsAsciiAlphaOrAbove then
      ReadWordAux f (Next r)
        (if len < pre.length then pre.set len (AsciiAlphaToLower r.ch) else pre)
        (len + 1)
    else (len, pre, r)

/-- The zero-padding loop at the end of InputReader::ReadWord. -/
def ZeroFillAux (fuel : Nat) (pre : List Nat) (i : Nat) : List Nat :=
  match fuel with
  | 0 => pre
  | Nat.succ f => if i < pre.length then ZeroFillAux f (pre.set i 0) (i + 1) else pre

/-- InputReader::ReadWord: read the word into the caller buffer pre, then pad
the remainder of the buffer with zeroes; return the word length. -/
def ReadWord (r : InputReader) (pre : List Nat) : Nat × List Nat × InputReader :=
  match ReadWordAux (r.buffer.length + 1) r pre 0 with
  | (len, p, r2) => (len, ZeroFillAux p.length p len, r2)

/-- InputReader::Skip. -/
def Skip (r : InputReader) (c : Nat) : Bool × InputReader :=
  if r.ch = c then (true, Next r) else (false, r)

/-- InputReader::SkipWhiteSpace, parameterized by the injected whitespace
classification of the unicode cache. -/
def SkipWhiteSpace (ws : Nat → Bool) (r : InputReader) : Bool × InputReader :=
  if ws r.ch then (true, Next r) else (false, r)

/-- Loop of InputReader::SkipParentheses with explicit fuel: the do-while body
adjusts the balance on 41 and 40 (the codes of the close and open
parenthesis), advances, and continues while the balance is positive and the
lookahead is nonzero. -/
def SkipParenLoopAux (fuel : Nat) (r : InputReader) (balance : Int) : InputReader :=
  match fuel with
  | 0 => r
  | Nat.succ f =>
    let b := if r.ch = 41 then balance - 1 else if r.ch = 40 then balance + 1 else balance
    let r2 := Next r
    if 0 < b ∧ r2.ch ≠ 0 then SkipParenLoopAux f r2 b else r2

/-- InputReader::SkipParentheses. -/
def SkipParentheses (r : InputReader) : Bool × InputReader :=
  if r.ch ≠ 40 then (false, r)
  else (true, SkipParenLoopAux (r.buffer.length + 1) r 0)

/-- TimeComposer::IsMinute. -/
def TimeComposer.IsMinute (x : Int) : Bool := Between x 0 59

/-- TimeComposer::IsHour. -/
def TimeComposer.IsHour (x : Int) : Bool := Between x 0 23

/-- TimeComposer::IsSecond. -/
def TimeComposer.IsSecond (x : Int) : Bool := Between x 0 59

/-- TimeComposer::IsHour12. -/
def TimeComposer.IsHour12 (x : Int) : Bool := Between x 0 12

/-- TimeComposer::IsMillisecond. -/
def TimeComposer.IsMillisecond (x : Int) : Bool := Between x 0 999

/-- DayComposer::IsMonth. -/
def DayComposer.IsMonth (x : Int) : Bool := Between x 1 12

/-- DayComposer::IsDay. -/
def DayComposer.IsDay (x : Int) : Bool := Between x 1 31

/-- Characterization of Between: under the stated size bounds the unsigned
comparison decides the closed interval. -/
theorem between_true_iff (x lo hi : Int)
    (h1 : -2147483648 ≤ x) (h2 : x - lo < 4294967296)
    (h3 : lo ≤ hi) (h4 : hi < 2147483648) (h5 : hi - lo < 4294967296) :
    (Between x lo hi = true) ↔ (lo ≤ x ∧ x ≤ hi) := by
  simp only [Between, toUnsigned, decide_eq_true_eq]
  omega

/-- C4: Between(x, lo, hi), an unsigned comparison of (x - lo) against
(hi - lo) with subtraction modulo 2^32, decides the closed interval
lo ≤ x ≤ hi for every 32-bit integer x when lo ≤ hi; consequently the field
predicates of TimeComposer and DayComposer decide exactly their documented
ranges. -/
theorem c4_between_decides_intervals (x lo hi : Int)
    (hx1 : -2147483648 ≤ x) (hx2 : x < 2147483648)
    (hlo : -2147483648 ≤ lo) (hhi : hi < 2147483648) (hle : lo ≤ hi) :
    (Between x lo hi = true ↔ lo ≤ x ∧ x ≤ hi) ∧
    (TimeComposer.IsHour x = true ↔ 0 ≤ x ∧ x ≤ 23) ∧
    (TimeComposer.IsMinute x = true ↔ 0 ≤ x ∧ x ≤ 59) ∧
    (TimeComposer.IsSecond x = true ↔ 0 ≤ x ∧ x ≤ 59) ∧
    (TimeComposer.IsMillisecond x = true ↔ 0 ≤ x ∧ x ≤ 999) ∧
    (DayComposer.IsMonth x = true ↔ 1 ≤ x ∧ x ≤ 12) ∧
    (DayComposer.IsDay x = true ↔ 1 ≤ x ∧ x ≤ 31) := by
  refine ⟨between_true_iff x lo hi hx1 (by omega) hle hhi (by omega), ?_, ?_, ?_, ?_, ?_, ?_⟩ <;>
    first
      | exact between_true_iff x 0 _ hx1 (by omega) (by omega) (by omega) (by omega)
      | exact between_true_iff x 1 _ hx1 (by omega) (by omega) (by omega) (by omega)

/-- C4 witness: the characterizations at concrete inputs. -/
theorem c4_witness :
    (Between 10 0 59 = true ↔ (0:Int) ≤ 10 ∧ (10:Int) ≤ 59) ∧
    (DayComposer.IsMonth 10 = true ↔ (1:Int) ≤ 10 ∧ (10:Int) ≤ 12) :=
  ⟨(c4_between_decides_intervals 10 0 59 (by decide) (by decide) (by decide)
      (by decide) (by decide)).1,
   (c4_between_decides_intervals 10 0 59 (by decide) (by decide) (by decide)
      (by decide) (by decide)).2.2.2.2.2.1⟩

/-- C3 counterexample: IsHour12 accepts 0, so it does not decide the
interval [1, 12] claimed for the 12-hour-clock validity predicate. -/
theorem c3_counterexample :
    TimeComposer.IsHour12 0 = true ∧ ¬ ((1:Int) ≤ 0 ∧ (0:Int) ≤ 12) := by
  constructor
  · rfl
  · decide

/-- C3 amended: IsHour12, implemented as Between(x, 0, 12), holds for a
32-bit integer x exactly when 0 ≤ x ≤ 12. -/
theorem c3_ishour12_range (x : Int)
    (h1 : -2147483648 ≤ x) (h2 : x < 2147483648) :
    TimeComposer.IsHour12 x = true ↔ 0 ≤ x ∧ x ≤ 12 :=
  between_true_iff x 0 12 h1 (by omega) (by omega) (by omega) (by omega)

/-- C3 witness: the amended characterization at concrete inputs. -/
theorem c3_witness : TimeComposer.IsHour12 12 = true ↔ (0:Int) ≤ 12 ∧ (12:Int) ≤ 12 :=
  c3_ishour12_range 12 (by decide) (by decide)

theorem charAt_nil (i : Nat) : charAt [] i = 0 := by
  cases i <;> rfl

theorem charAt_cons_zero (c : Nat) (l : List Nat) : charAt (c :: l) 0 = c := rfl

theorem charAt_cons_succ (c : Nat) (l : List Nat) (i : Nat) :
    charAt (c :: l) (i + 1) = charAt l i := rfl

theorem charAt_append (a zs : List Nat) (k : Nat) :
    charAt (a ++ zs) (a.length + k) = charAt zs k := by
  induction a with
  | nil => simp [charAt]
  | cons c a ih =>
    have : (c :: a).length + k = (a.length + k) + 1 := by simp; omega
    rw [this, List.cons_append, charAt_cons_succ]
    exact ih

theorem charAt_past_end (l : List Nat) (i : Nat) (h : l.length ≤ i) : charAt l i = 0 := by
  induction l generalizing i with
  | nil => exact charAt_nil i
  | cons c l ih =>
    cases i with
    | zero => simp at h
    | succ j => rw [charAt_cons_succ]; exact ih j (by simpa using h)

theorem lt_length_of_charAt_ne_zero (l : List Nat) (i : Nat) (h : charAt l i ≠ 0) :
    i < l.length := by
  by_contra hc
  exact h (charAt_past_end l i (by omega))

/-- Value accumulation of the digit loop: each digit is appended in base 10
while fewer than kMaxSignificantDigits digits have been used. -/
def foldAcc (n : Int) (i : Nat) : List Nat → Int
  | [] => n
  | d :: t =>
    foldAcc (if i < kMaxSignificantDigits then n * 10 + ((d : Int) - 48) else n) (i + 1) t

/-- The base-10 value of a digit string. -/
def digitsValue (ds : List Nat) : Int :=
  ds.foldl (fun n d => n * 10 + ((d : Int) - 48)) 0

theorem foldAcc_eq_foldl_take (ds : List Nat) (n : Int) (i : Nat) :
    foldAcc n i ds =
      (ds.take (kMaxSignificantDigits - i)).foldl (fun n d => n * 10 + ((d : Int) - 48)) n := by
  induction ds generalizing n i with
  | nil => simp [foldAcc]
  | cons d t ih =>
    by_cases h : i < kMaxSignificantDigits
    · have hk : kMaxSignificantDigits - i = (kMaxSignificantDigits - (i + 1)) + 1 := by omega
      simp only [foldAcc, if_pos h, hk, List.take_succ_cons, List.foldl_cons]
      exact ih _ (i + 1)
    · have hk : kMaxSignificantDigits - i = 0 := by omega
      have hk2 : kMaxSignificantDigits - (i + 1) = 0 := by omega
      rw [foldAcc, if_neg h, ih n (i + 1), hk, hk2]
      simp

/-- Run lemma for the digit loop: started just before a digit string ds that
is followed by a non-digit, the loop folds ds into the accumulator and stops
with its cursor one past ds, for any sufficient fuel. -/
theorem readUnsignedNumeralAux_run (ds : List Nat) :
    ∀ (a rest : List Nat) (r : InputReader) (n : Int) (i : Nat) (fuel : Nat),
    r.buffer = a ++ ds ++ rest → r.index = a.length + 1 →
    r.ch = charAt r.buffer a.length →
    (∀ d ∈ ds, IsDecimalDigit d = true) →
    IsDecimalDigit (charAt rest 0) = false →
    ds.length ≤ fuel →
    ReadUnsignedNumeralAux fuel r n i =
      (foldAcc n i ds,
       ⟨r.buffer, a.length + ds.length + 1, charAt rest 0⟩) := by
  induction ds with
  | nil =>
    intro a rest r n i fuel hbuf hidx hch _ hstop _
    have hchv : r.ch = charAt rest 0 := by
      rw [hch, hbuf]
      simpa using charAt_append a rest 0
    have hguard : r.IsAsciiDigit = false := by
      rw [InputReader.IsAsciiDigit, hchv]; exact hstop
    have hr : r = ⟨r.buffer, a.length + 0 + 1, charAt rest 0⟩ := by
      cases r
      simp_all
    cases fuel with
    | zero => rw [ReadUnsignedNumeralAux, foldAcc]; exact congrArg _ hr
    | succ f =>
      rw [ReadUnsignedNumeralAux, hguard, foldAcc]
      simp only [Bool.false_eq_true, if_false]
      exact congrArg _ hr
  | cons d t ih =>
    intro a rest r n i fuel hbuf hidx hch hds hstop hfuel
    have hchd : r.ch = d := by
      rw [hch, hbuf]
      have := charAt_append a (d :: t ++ rest) 0
      simpa using this
    have hguard : r.IsAsciiDigit = true := by
      rw [InputReader.IsAsciiDigit, hchd]
      exact hds d (by simp)
    cases fuel with
    | zero => simp at hfuel
    | succ f =>
      rw [ReadUnsignedNumeralAux, hguard]
      simp only [if_true]
      have hnext : Next r = ⟨r.buffer, (a ++ [d]).length + 1, charAt r.buffer ((a ++ [d]).length)⟩ := by
        rw [Next]
        cases r
        simp_all
      rw [hchd, hnext]
      have hbuf2 : r.buffer = (a ++ [d]) ++ t ++ rest := by rw [hbuf]; simp
      have := ih (a ++ [d]) rest
        ⟨r.buffer, (a ++ [d]).length + 1, charAt r.buffer ((a ++ [d]).length)⟩
        (if i < kMaxSignificantDigits then n * 10 + ((d : Int) - 48) else n) (i + 1) f
        hbuf2 rfl rfl (fun x hx => hds x (by simp [hx])) hstop (by simp at hfuel ⊢; omega)
      rw [this, foldAcc]
      simp
      all_goals omega

/-- C2: when the lookahead starts a maximal run ds of decimal digits,
ReadUnsignedNumeral consumes the whole run (its cursor ends one past the
last digit, however long the run), and returns the value accumulated from
the first kMaxSignificantDigits digits of the run; later digits are consumed
but do not affect the value. -/
theorem c2_read_unsigned_numeral (a ds rest : List Nat) (r : InputReader)
    (hbuf : r.buffer = a ++ ds ++ rest)
    (hidx : r.index = a.length + 1)
    (hch : r.ch = charAt r.buffer a.length)
    (hds : ∀ d ∈ ds, IsDecimalDigit d = true)
    (hstop : IsDecimalDigit (charAt rest 0) = false) :
    ReadUnsignedNumeral r =
      (digitsValue (ds.take kMaxSignificantDigits),
       ⟨r.buffer, a.length + ds.length + 1, charAt rest 0⟩) := by
  have hfuel : ds.length ≤ r.buffer.length + 1 := by
    rw [hbuf]; simp; omega
  rw [ReadUnsignedNumeral,
    readUnsignedNumeralAux_run ds a rest r 0 0 _ hbuf hidx hch hds hstop hfuel,
    foldAcc_eq_foldl_take]
  rfl

/-- C2 witness: a 15-digit numeral truncates to the value of its first 9
digits while the cursor still advances past all 15 characters. -/
theorem c2_witness :
    ReadUnsignedNumeral (mkReader [49, 50, 51, 52, 53, 54, 55, 56, 57, 48, 49, 50, 51, 52, 53]) =
      (123456789, ⟨[49, 50, 51, 52, 53, 54, 55, 56, 57, 48, 49, 50, 51, 52, 53], 16, 0⟩) := by
  have h := c2_read_unsigned_numeral []
    [49, 50, 51, 52, 53, 54, 55, 56, 57, 48, 49, 50, 51, 52, 53] []
    (mkReader [49, 50, 51, 52, 53, 54, 55, 56, 57, 48, 49, 50, 51, 52, 53])
    rfl rfl rfl (by decide) (by decide)
  rw [h]
  rfl

/-- Nesting weight of one character: a close parenthesis decrements the
balance, an open parenthesis increments it. -/
def parenWeight (c : Nat) : Int := if c = 41 then -1 else if c = 40 then 1 else 0

/-- Total nesting balance of a character list. -/
def parenBalance (l : List Nat) : Int := (l.map parenWeight).sum

theorem parenBalance_cons (c : Nat) (l : List Nat) :
    parenBalance (c :: l) = parenWeight c + parenBalance l := by
  simp [parenBalance]

theorem skipParenLoopAux_succ (f : Nat) (r : InputReader) (b : Int) :
    SkipParenLoopAux (f + 1) r b =
      (if 0 < (if r.ch = 41 then b - 1 else if r.ch = 40 then b + 1 else b) ∧ (Next r).ch ≠ 0
       then SkipParenLoopAux f (Next r) (if r.ch = 41 then b - 1 else if r.ch = 40 then b + 1 else b)
       else Next r) := rfl

theorem balance_step_eq (c : Nat) (b : Int) :
    (if c = 41 then b - 1 else if c = 40 then b + 1 else b) = b + parenWeight c := by
  unfold parenWeight
  split_ifs <;> omega

/-- Run lemma for the parenthesis loop: entered at the start of a balanced
span inner whose proper prefixes all have positive balance and which holds
no NUL, the loop stops with the cursor one past the span. -/
theorem skipParenLoopAux_run (inner : List Nat) :
    ∀ (a rest : List Nat) (r : InputReader) (b : Int) (fuel : Nat),
    r.buffer = a ++ inner ++ rest → r.index = a.length + 1 →
    r.ch = charAt r.buffer a.length →
    inner ≠ [] →
    b + parenBalance inner = 0 →
    (∀ k, k < inner.length → 0 < k → 0 < b + parenBalance (inner.take k)) →
    (∀ c ∈ inner, c ≠ 0) →
    inner.length ≤ fuel →
    SkipParenLoopAux fuel r b =
      ⟨r.buffer, a.length + inner.length + 1, charAt rest 0⟩ := by
  induction inner with
  | nil => intro a rest r b fuel _ _ _ hne; exact absurd rfl hne
  | cons h t ih =>
    intro a rest r b fuel hbuf hidx hch _ hbal hpre hnz hfuel
    have hchh : r.ch = h := by
      rw [hch, hbuf]
      have := charAt_append a (h :: t ++ rest) 0
      simpa using this
    cases fuel with
    | zero => simp at hfuel
    | succ f =>
      rw [skipParenLoopAux_succ, hchh, balance_step_eq]
      have hnext : Next r =
          ⟨r.buffer, (a ++ [h]).length + 1, charAt r.buffer ((a ++ [h]).length)⟩ := by
        rw [Next]
        cases r
        simp_all
      cases t with
      | nil =>
        have hb0 : b + parenWeight h = 0 := by
          rw [parenBalance_cons] at hbal
          simp only [parenBalance, List.map_nil, List.sum_nil] at hbal
          omega
        rw [hb0]
        simp only [lt_self_iff_false, false_and, if_false]
        rw [hnext]
        have hc : charAt r.buffer (a ++ [h]).length = charAt rest 0 := by
          rw [hbuf]
          have := charAt_append (a ++ [h]) rest 0
          simpa using this
        rw [hc]
        simp
      | cons c t2 =>
        have hbpos : 0 < b + parenWeight h := by
          have := hpre 1 (by simp) (by omega)
          simpa [parenBalance, parenWeight] using this
        have hch2 : (Next r).ch = c := by
          rw [hnext]
          rw [hbuf]
          have h1 := charAt_append a ((h :: c :: t2) ++ rest) 1
          simp only [List.append_assoc] at h1 ⊢
          simp at h1 ⊢
          rw [h1]
          rfl
        have hcne : c ≠ 0 := hnz c (by simp)
        rw [if_pos ⟨hbpos, by rw [hch2]; exact hcne⟩]
        have hbuf2 : r.buffer = (a ++ [h]) ++ (c :: t2) ++ rest := by rw [hbuf]; simp
        have := ih (a ++ [h]) rest (Next r) (b + parenWeight h) f
          (by rw [hnext]; exact hbuf2)
          (by rw [hnext])
          (by rw [hnext])
          (by simp)
          (by rw [parenBalance_cons] at hbal; omega)
          (by
            intro k hk hk0
            have := hpre (k + 1) (by simpa using hk) (by omega)
            rw [List.take_succ_cons, parenBalance_cons] at this
            omega)
          (fun x hx => hnz x (by simp [hx]))
          (by simpa using hfuel)
        rw [this, hnext]
        simp
        omega

/-- C5: SkipParentheses returns false and leaves the reader unchanged when
the lookahead is not an open parenthesis; on an open parenthesis it returns
true and, for a balanced parenthesized span (nesting included), stops with
its cursor just past the matching close parenthesis. -/
theorem c5_skip_parentheses :
    (∀ r : InputReader, r.ch ≠ 40 → SkipParentheses r = (false, r)) ∧
    (∀ (a inner rest : List Nat) (r : InputReader),
      r.buffer = a ++ inner ++ rest → r.index = a.length + 1 →
      r.ch = charAt r.buffer a.length →
      inner.head? = some 40 →
      parenBalance inner = 0 →
      (∀ k, k < inner.length → 0 < k → 0 < parenBalance (inner.take k)) →
      (∀ c ∈ inner, c ≠ 0) →
      SkipParentheses r =
        (true, ⟨r.buffer, a.length + inner.length + 1, charAt rest 0⟩)) := by
  constructor
  · intro r h
    rw [SkipParentheses, if_pos h]
  · intro a inner rest r hbuf hidx hch hhead hbal hpre hnz
    have hne : inner ≠ [] := by
      intro he
      rw [he] at hhead
      simp at hhead
    have hch40 : r.ch = 40 := by
      rw [hch, hbuf]
      cases inner with
      | nil => simp at hhead
      | cons x t =>
        simp at hhead
        have := charAt_append a (x :: t ++ rest) 0
        simp at this ⊢
        rw [this, hhead]
        rfl
    rw [SkipParentheses]
    rw [if_neg (by simp [hch40])]
    have hfuel : inner.length ≤ r.buffer.length + 1 := by
      rw [hbuf]; simp; omega
    rw [skipParenLoopAux_run inner a rest r 0 _ hbuf hidx hch hne
      (by omega) (by simpa using hpre) hnz hfuel]

/-- C5 witness: a non-parenthesis start is left unchanged, and a nested
parenthesized comment is skipped up to just past its matching close. -/
theorem c5_witness :
    SkipParentheses (mkReader [97]) = (false, mkReader [97]) ∧
    SkipParentheses (mkReader [40, 120, 40, 121, 41, 41, 122]) =
      (true, ⟨[40, 120, 40, 121, 41, 41, 122], 7, 122⟩) := by
  constructor
  · exact c5_skip_parentheses.1 (mkReader [97]) (by decide)
  · have h := c5_skip_parentheses.2 [] [40, 120, 40, 121, 41, 41] [122]
      (mkReader [40, 120, 40, 121, 41, 41, 122]) rfl rfl rfl rfl
      (by decide) (by decide) (by decide)
    rw [h]
    rfl

/-- The sequence of buffer writes performed by the word loop: the character
at offset len is lowercased into the buffer while len is inside it. -/
def writePre (p : List Nat) (len : Nat) : List Nat → List Nat
  | [] => p
  | c :: t => writePre (if len < p.length then p.set len (AsciiAlphaToLower c) else p) (len + 1) t

/-- Run lemma for the word loop: started just before a word w (characters
at least 65) followed by a non-word character, the loop performs the buffer
writes of w and stops with its cursor one past w, returning the full length. -/
theorem readWordAux_run (w : List Nat) :
    ∀ (a rest : List Nat) (r : InputReader) (p : List Nat) (len fuel : Nat),
    r.buffer = a ++ w ++ rest → r.index = a.length + 1 →
    r.ch = charAt r.buffer a.length →
    (∀ c ∈ w, 65 ≤ c) →
    charAt rest 0 < 65 →
    w.length ≤ fuel →
    ReadWordAux fuel r p len =
      (len + w.length, writePre p len w,
       ⟨r.buffer, a.length + w.length + 1, charAt rest 0⟩) := by
  induction w with
  | nil =>
    intro a rest r p len fuel hbuf hidx hch _ hstop _
    have hchv : r.ch = charAt rest 0 := by
      rw [hch, hbuf]
      simpa using charAt_append a rest 0
    have hguard : r.IsAsciiAlphaOrAbove = false := by
      rw [InputReader.IsAsciiAlphaOrAbove, hchv]
      simpa using hstop
    have hr : r = ⟨r.buffer, a.length + 0 + 1, charAt rest 0⟩ := by
      cases r
      simp_all
    cases fuel with
    | zero => rw [ReadWordAux, writePre]; simpa using congrArg (fun s => (len, p, s)) hr
    | succ f =>
      rw [ReadWordAux, hguard, writePre]
      simp only [Bool.false_eq_true, if_false]
      simpa using congrArg (fun s => (len, p, s)) hr
  | cons c t ih =>
    intro a rest r p len fuel hbuf hidx hch hw hstop hfuel
    have hchc : r.ch = c := by
      rw [hch, hbuf]
      have := charAt_append a (c :: t ++ rest) 0
      simpa using this
    have hguard : r.IsAsciiAlphaOrAbove = true := by
      rw [InputReader.IsAsciiAlphaOrAbove, hchc]
      simpa using hw c (by simp)
    cases fuel with
    | zero => simp at hfuel
    | succ f =>
      rw [ReadWordAux, hguard]
      simp only [if_true]
      have hnext : Next r =
          ⟨r.buffer, (a ++ [c]).length + 1, charAt r.buffer ((a ++ [c]).length)⟩ := by
        rw [Next]
        cases r
        simp_all
      rw [hchc, hnext]
      have hbuf2 : r.buffer = (a ++ [c]) ++ t ++ rest := by rw [hbuf]; simp
      have := ih (a ++ [c]) rest
        ⟨r.buffer, (a ++ [c]).length + 1, charAt r.buffer ((a ++ [c]).length)⟩
        (if len < p.length then p.set len (AsciiAlphaToLower c) else p) (len + 1) f
        hbuf2 rfl rfl (fun x hx => hw x (by simp [hx])) hstop (by simp at hfuel ⊢; omega)
      rw [this, writePre]
      simp
      all_goals omega

theorem take_succ_set (p : List Nat) (i : Nat) (x : Nat) (h : i < p.length) :
    (p.set i x).take (i + 1) = p.take i ++ [x] := by
  induction p generalizing i with
  | nil => simp at h
  | cons a t ih =>
    cases i with
    | zero => simp
    | succ j =>
      have := ih j (by simpa using h)
      simp [List.set, this]

theorem zeroFillAux_run (f : Nat) :
    ∀ (p : List Nat) (i : Nat), p.length - i ≤ f →
    ZeroFillAux f p i = p.take i ++ List.replicate (p.length - i) 0 := by
  induction f with
  | zero =>
    intro p i h
    have hle : p.length ≤ i := by omega
    rw [ZeroFillAux]
    rw [List.take_of_length_le hle]
    have : p.length - i = 0 := by omega
    simp [this]
  | succ f ih =>
    intro p i h
    rw [ZeroFillAux]
    by_cases hi : i < p.length
    · rw [if_pos hi]
      have hlen : (p.set i 0).length = p.length := by simp
      rw [ih (p.set i 0) (i + 1) (by rw [hlen]; omega)]
      rw [hlen, take_succ_set p i 0 hi]
      have h1 : p.length - i = (p.length - (i + 1)) + 1 := by omega
      rw [h1, List.replicate_succ]
      simp
    · rw [if_neg hi]
      rw [List.take_of_length_le (by omega)]
      have : p.length - i = 0 := by omega
      simp [this]

/-- After the word writes, the zero-padding loop produces exactly the
lowercased prefix of w followed by zero padding to the buffer size. -/
theorem zeroFill_writePre (w : List Nat) :
    ∀ (p : List Nat) (len : Nat),
    ZeroFillAux (writePre p len w).length (writePre p len w) (len + w.length) =
      p.take len ++ ((w.map AsciiAlphaToLower).take (p.length - len)) ++
        List.replicate (p.length - len - w.length) 0 := by
  induction w with
  | nil =>
    intro p len
    rw [writePre]
    simp only [List.length_nil, Nat.add_zero, List.map_nil, Nat.sub_zero]
    rw [zeroFillAux_run p.length p len (by omega)]
    simp
  | cons c t ih =>
    intro p len
    rw [writePre]
    by_cases hl : len < p.length
    · rw [if_pos hl]
      have hlen : (p.set len (AsciiAlphaToLower c)).length = p.length := by simp
      have harith : len + (c :: t).length = (len + 1) + t.length := by simp; omega
      rw [harith, ih (p.set len (AsciiAlphaToLower c)) (len + 1)]
      rw [hlen, take_succ_set p len (AsciiAlphaToLower c) hl]
      have h2 : p.length - len - (c :: t).length = p.length - (len + 1) - t.length := by
        simp only [List.length_cons]; omega
      rw [h2]
      have h1 : p.length - len = (p.length - (len + 1)) + 1 := by omega
      rw [h1]
      simp [List.take_succ_cons]
    · rw [if_neg hl]
      have harith : len + (c :: t).length = (len + 1) + t.length := by simp; omega
      rw [harith, ih p (len + 1)]
      have h0 : p.length - len = 0 := by omega
      have h1 : p.length - (len + 1) = 0 := by omega
      rw [h0, h1]
      simp only [List.take_zero, Nat.zero_sub, List.replicate_zero, List.append_nil]
      rw [List.take_of_length_le (show p.length ≤ len + 1 by omega),
        List.take_of_length_le (show p.length ≤ len by omega)]

/-- C6: ReadWord consumes the maximal run w of letter-or-above characters,
fills the caller buffer with the lowercased first characters of w up to the
buffer size, zero-pads the rest of the buffer, returns the true length of w,
and leaves the cursor one past the run. -/
theorem c6_read_word (a w rest p : List Nat) (r : InputReader)
    (hbuf : r.buffer = a ++ w ++ rest)
    (hidx : r.index = a.length + 1)
    (hch : r.ch = charAt r.buffer a.length)
    (hw : ∀ c ∈ w, 65 ≤ c)
    (hstop : charAt rest 0 < 65) :
    ReadWord r p =
      (w.length,
       (w.map AsciiAlphaToLower).take p.length ++ List.replicate (p.length - w.length) 0,
       ⟨r.buffer, a.length + w.length + 1, charAt rest 0⟩) := by
  have hfuel : w.length ≤ r.buffer.length + 1 := by
    rw [hbuf]; simp; omega
  rw [ReadWord,
    readWordAux_run w a rest r p 0 _ hbuf hidx hch hw hstop hfuel]
  have h0 : (0:Nat) + w.length = 0 + w.length := rfl
  have := zeroFill_writePre w p 0
  simp only [Nat.zero_add] at this ⊢
  rw [this]
  simp

/-- C6 witness: a four-letter word against a three-slot buffer returns the
true length 4, fills the buffer with the three lowercased characters, and
moves the cursor past the whole word. -/
theorem c6_witness :
    ReadWord (mkReader [65, 66, 67, 68, 46]) [1, 2, 3] =
      (4, [97, 98, 99], ⟨[65, 66, 67, 68, 46], 5, 46⟩) := by
  have h := c6_read_word [] [65, 66, 67, 68] [46] [1, 2, 3]
    (mkReader [65, 66, 67, 68, 46]) rfl rfl rfl (by decide) (by decide)
  rw [h]
  decide

/-- Reachable reader states: the cursor has moved at least once and the
lookahead caches the character just before the cursor. -/
def WFReader (r : InputReader) : Prop :=
  1 ≤ r.index ∧ r.ch = charAt r.buffer (r.index - 1)

/-- Number of input positions left, counted from the lookahead position. -/
def remaining (r : InputReader) : Nat := r.buffer.length + 1 - r.index

theorem readUnsignedNumeralAux_succ (f : Nat) (r : InputReader) (n : Int) (i : Nat) :
    ReadUnsignedNumeralAux (f + 1) r n i =
      (if r.IsAsciiDigit then
        ReadUnsignedNumeralAux f (Next r)
          (if i < kMaxSignificantDigits then n * 10 + ((r.ch : Int) - 48) else n) (i + 1)
      else (n, r)) := rfl

theorem readWordAux_succ (f : Nat) (r : InputReader) (p : List Nat) (len : Nat) :
    ReadWordAux (f + 1) r p len =
      (if r.IsAsciiAlphaOrAbove then
        ReadWordAux f (Next r)
          (if len < p.length then p.set len (AsciiAlphaToLower r.ch) else p) (len + 1)
      else (len, p, r)) := rfl

theorem wfReader_next (r : InputReader) : WFReader (Next r) := by
  constructor
  · simp [Next]
  · simp [Next]

theorem remaining_next (r : InputReader) : remaining (Next r) = remaining r - 1 := by
  simp [remaining, Next]
  omega

/-- Past the remaining input the digit loop is fuel-insensitive: any fuel of
at least the remaining length computes the same result. -/
theorem readUnsignedNumeralAux_stable (m : Nat) :
    ∀ (fuel : Nat) (r : InputReader) (n : Int) (i : Nat),
    WFReader r → remaining r ≤ m → m ≤ fuel →
    ReadUnsignedNumeralAux fuel r n i = ReadUnsignedNumeralAux m r n i := by
  induction m with
  | zero =>
    intro fuel r n i hwf hrem _
    have hch : r.ch = 0 := by
      rw [hwf.2]
      exact charAt_past_end _ _ (by have := hwf.1; simp [remaining] at hrem; omega)
    have hguard : r.IsAsciiDigit = false := by
      rw [InputReader.IsAsciiDigit, hch]
      decide
    cases fuel with
    | zero => rfl
    | succ f => rw [readUnsignedNumeralAux_succ, hguard]; simp [ReadUnsignedNumeralAux]
  | succ m ih =>
    intro fuel r n i hwf hrem hfuel
    cases fuel with
    | zero => omega
    | succ f =>
      rw [readUnsignedNumeralAux_succ, readUnsignedNumeralAux_succ]
      by_cases hguard : r.IsAsciiDigit
      · rw [if_pos hguard, if_pos hguard]
        have hne : r.ch ≠ 0 := by
          rw [InputReader.IsAsciiDigit, IsDecimalDigit] at hguard
          simp at hguard
          omega
        have hlt : r.index - 1 < r.buffer.length := by
          apply lt_length_of_charAt_ne_zero
          rw [← hwf.2]
          exact hne
        have hrem2 : remaining (Next r) ≤ m := by
          rw [remaining_next]
          have := hwf.1
          simp [remaining] at hrem ⊢
          omega
        exact ih f (Next r) _ (i + 1) (wfReader_next r) hrem2 (by omega)
      · rw [if_neg hguard, if_neg hguard]

/-- Fuel insensitivity of the word loop above the remaining input length. -/
theorem readWordAux_stable (m : Nat) :
    ∀ (fuel : Nat) (r : InputReader) (p : List Nat) (len : Nat),
    WFReader r → remaining r ≤ m → m ≤ fuel →
    ReadWordAux fuel r p len = ReadWordAux m r p len := by
  induction m with
  | zero =>
    intro fuel r p len hwf hrem _
    have hch : r.ch = 0 := by
      rw [hwf.2]
      exact charAt_past_end _ _ (by have := hwf.1; simp [remaining] at hrem; omega)
    have hguard : r.IsAsciiAlphaOrAbove = false := by
      rw [InputReader.IsAsciiAlphaOrAbove, hch]
      decide
    cases fuel with
    | zero => rfl
    | succ f => rw [readWordAux_succ, hguard]; simp [ReadWordAux]
  | succ m ih =>
    intro fuel r p len hwf hrem hfuel
    cases fuel with
    | zero => omega
    | succ f =>
      rw [readWordAux_succ, readWordAux_succ]
      by_cases hguard : r.IsAsciiAlphaOrAbove
      · rw [if_pos hguard, if_pos hguard]
        have hne : r.ch ≠ 0 := by
          rw [InputReader.IsAsciiAlphaOrAbove] at hguard
          simp at hguard
          omega
        have hlt : r.index - 1 < r.buffer.length := by
          apply lt_length_of_charAt_ne_zero
          rw [← hwf.2]
          exact hne
        have hrem2 : remaining (Next r) ≤ m := by
          rw [remaining_next]
          have := hwf.1
          simp [remaining] at hrem ⊢
          omega
        exact ih f (Next r) _ (len + 1) (wfReader_next r) hrem2 (by omega)
      · rw [if_neg hguard, if_neg hguard]

/-- Fuel insensitivity of the parenthesis loop above remaining + 1: the
do-while body runs once even when the cursor is already past the end, and
the loaded end sentinel then stops it. -/
theorem skipParenLoopAux_stable (m : Nat) :
    ∀ (fuel : Nat) (r : InputReader) (b : Int),
    WFReader r → remaining r + 1 ≤ m → m ≤ fuel →
    SkipParenLoopAux fuel r b = SkipParenLoopAux m r b := by
  induction m with
  | zero => intro fuel r b _ hrem _; omega
  | succ m ih =>
    intro fuel r b hwf hrem hfuel
    cases fuel with
    | zero => omega
    | succ f =>
      rw [skipParenLoopAux_succ, skipParenLoopAux_succ]
      by_cases hcond : 0 < (if r.ch = 41 then b - 1 else if r.ch = 40 then b + 1 else b) ∧
          (Next r).ch ≠ 0
      · rw [if_pos hcond, if_pos hcond]
        have hne : charAt r.buffer r.index ≠ 0 := by
          simpa [Next] using hcond.2
        have hlt : r.index < r.buffer.length :=
          lt_length_of_charAt_ne_zero r.buffer r.index hne
        have hrem2 : remaining (Next r) + 1 ≤ m := by
          rw [remaining_next]
          simp [remaining] at hrem ⊢
          omega
        exact ih f (Next r) _ (wfReader_next r) hrem2 (by omega)
      · rw [if_neg hcond, if_neg hcond]

/-- C9: every character-consuming loop of the reader terminates on finite
input: Next strictly advances the cursor, past the end of the buffer the
lookahead is the sentinel 0, the sentinel satisfies none of the loop guards,
and consequently each fuel-indexed loop is independent of the fuel once it
covers the remaining input length, so each loop is a total function of the
reader state. -/
theorem c9_loops_terminate :
    (∀ r : InputReader, (Next r).index = r.index + 1) ∧
    (∀ (buf : List Nat) (i : Nat), buf.length ≤ i → charAt buf i = 0) ∧
    (∀ r : InputReader, r.ch = 0 →
      r.IsAsciiDigit = false ∧ r.IsAsciiAlphaOrAbove = false ∧ r.IsEnd = true) ∧
    (∀ (r : InputReader) (n : Int) (i : Nat) (f1 f2 : Nat),
      WFReader r → remaining r ≤ f1 → remaining r ≤ f2 →
      ReadUnsignedNumeralAux f1 r n i = ReadUnsignedNumeralAux f2 r n i) ∧
    (∀ (r : InputReader) (p : List Nat) (len : Nat) (f1 f2 : Nat),
      WFReader r → remaining r ≤ f1 → remaining r ≤ f2 →
      ReadWordAux f1 r p len = ReadWordAux f2 r p len) ∧
    (∀ (r : InputReader) (b : Int) (f1 f2 : Nat),
      WFReader r → remaining r + 1 ≤ f1 → remaining r + 1 ≤ f2 →
      SkipParenLoopAux f1 r b = SkipParenLoopAux f2 r b) := by
  refine ⟨fun r => rfl, charAt_past_end, ?_, ?_, ?_, ?_⟩
  · intro r h
    refine ⟨?_, ?_, ?_⟩ <;> simp [InputReader.IsAsciiDigit, InputReader.IsAsciiAlphaOrAbove,
      InputReader.IsEnd, IsDecimalDigit, h]
  · intro r n i f1 f2 hwf h1 h2
    rw [readUnsignedNumeralAux_stable (remaining r) f1 r n i hwf (by omega) h1,
      readUnsignedNumeralAux_stable (remaining r) f2 r n i hwf (by omega) h2]
  · intro r p len f1 f2 hwf h1 h2
    rw [readWordAux_stable (remaining r) f1 r p len hwf (by omega) h1,
      readWordAux_stable (remaining r) f2 r p len hwf (by omega) h2]
  · intro r b f1 f2 hwf h1 h2
    rw [skipParenLoopAux_stable (remaining r + 1) f1 r b hwf (by omega) h1,
      skipParenLoopAux_stable (remaining r + 1) f2 r b hwf (by omega) h2]

/-- C9 witness: the termination facts at a concrete reader state. -/
theorem c9_witness :
    (Next (mkReader [49, 50])).index = (mkReader [49, 50]).index + 1 ∧
    charAt [49, 50] 5 = 0 ∧
    ReadUnsignedNumeralAux 9 (mkReader [49, 50]) 0 0 =
      ReadUnsignedNumeralAux 2 (mkReader [49, 50]) 0 0 ∧
    SkipParenLoopAux 9 (mkReader [40, 41]) 0 = SkipParenLoopAux 3 (mkReader [40, 41]) 0 := by
  refine ⟨c9_loops_terminate.1 (mkReader [49, 50]),
    c9_loops_terminate.2.1 [49, 50] 5 (by decide),
    c9_loops_terminate.2.2.2.1 (mkReader [49, 50]) 0 0 9 2 ⟨by decide, by decide⟩
      (by decide) (by decide),
    c9_loops_terminate.2.2.2.2.2 (mkReader [40, 41]) 0 9 3 ⟨by decide, by decide⟩
      (by decide) (by decide)⟩

theorem readUnsignedNumeralAux_bound (fuel : Nat) :
    ∀ (r : InputReader) (n : Int) (i q : Nat),
    WFReader r → r.index ≤ q + 1 → charAt r.buffer q = 0 →
    ((ReadUnsignedNumeralAux fuel r n i).2).index ≤ q + 1 := by
  induction fuel with
  | zero => intro r n i q _ hidx _; exact hidx
  | succ f ih =>
    intro r n i q hwf hidx hq
    rw [readUnsignedNumeralAux_succ]
    by_cases hguard : r.IsAsciiDigit
    · rw [if_pos hguard]
      have hne : r.ch ≠ 0 := by
        rw [InputReader.IsAsciiDigit, IsDecimalDigit] at hguard
        simp at hguard
        omega
      have hneq : r.index - 1 ≠ q := by
        intro he
        rw [hwf.2, he, hq] at hne
        exact hne rfl
      have hle : r.index ≤ q := by
        have := hwf.1
        omega
      exact ih (Next r) _ (i + 1) q (wfReader_next r) (by simp [Next]; omega) hq
    · rw [if_neg hguard]
      exact hidx

theorem readWordAux_bound (fuel : Nat) :
    ∀ (r : InputReader) (p : List Nat) (len q : Nat),
    WFReader r → r.index ≤ q + 1 → charAt r.buffer q = 0 →
    ((ReadWordAux fuel r p len).2.2).index ≤ q + 1 := by
  induction fuel with
  | zero => intro r p len q _ hidx _; exact hidx
  | succ f ih =>
    intro r p len q hwf hidx hq
    rw [readWordAux_succ]
    by_cases hguard : r.IsAsciiAlphaOrAbove
    · rw [if_pos hguard]
      have hne : r.ch ≠ 0 := by
        rw [InputReader.IsAsciiAlphaOrAbove] at hguard
        simp at hguard
        omega
      have hneq : r.index - 1 ≠ q := by
        intro he
        rw [hwf.2, he, hq] at hne
        exact hne rfl
      have hle : r.index ≤ q := by
        have := hwf.1
        omega
      exact ih (Next r) _ (len + 1) q (wfReader_next r) (by simp [Next]; omega) hq
    · rw [if_neg hguard]
      exact hidx

theorem skipParenLoopAux_bound (fuel : Nat) :
    ∀ (r : InputReader) (b : Int) (q : Nat),
    WFReader r → r.index ≤ q → charAt r.buffer q = 0 →
    (SkipParenLoopAux fuel r b).index ≤ q + 1 := by
  induction fuel with
  | zero =>
    intro r b q _ hidx _
    simp only [SkipParenLoopAux]
    omega
  | succ f ih =>
    intro r b q hwf hidx hq
    rw [skipParenLoopAux_succ]
    by_cases hcond : 0 < (if r.ch = 41 then b - 1 else if r.ch = 40 then b + 1 else b) ∧
        (Next r).ch ≠ 0
    · rw [if_pos hcond]
      have hne : charAt r.buffer r.index ≠ 0 := by
        simpa [Next] using hcond.2
      have hneq : r.index ≠ q := by
        intro he
        rw [he, hq] at hne
        exact hne rfl
      exact ih (Next r) _ q (wfReader_next r) (by simp [Next]; omega) hq
    · rw [if_neg hcond]
      simp [Next]
      omega

/-- C10: the reader treats character value 0 as its end sentinel, so an
embedded NUL is indistinguishable from the end of the string: at the first
NUL IsEnd is true, and each reader operation started at or before the NUL
never moves its cursor past it, so no character after the NUL is examined. -/
theorem c10_nul_is_end_sentinel (a rest : List Nat) (r : InputReader) (c : Nat)
    (ws : Nat → Bool)
    (hbuf : r.buffer = a ++ 0 :: rest)
    (hfirst : ∀ x ∈ a, x ≠ 0)
    (hidx1 : 1 ≤ r.index) (hidx2 : r.index ≤ a.length + 1)
    (hch : r.ch = charAt r.buffer (r.index - 1)) :
    (r.index = a.length + 1 → r.IsEnd = true) ∧
    (ReadUnsignedNumeral r).2.index ≤ a.length + 1 ∧
    (∀ p : List Nat, ((ReadWord r p).2.2).index ≤ a.length + 1) ∧
    (SkipParentheses r).2.index ≤ a.length + 1 ∧
    (c ≠ 0 → (Skip r c).2.index ≤ a.length + 1) ∧
    (ws 0 = false → (SkipWhiteSpace ws r).2.index ≤ a.length + 1) := by
  have hwf : WFReader r := ⟨hidx1, hch⟩
  have hq : charAt r.buffer a.length = 0 := by
    rw [hbuf]
    simpa using charAt_append a (0 :: rest) 0
  refine ⟨?_, ?_, ?_, ?_, ?_, ?_⟩
  · intro he
    rw [InputReader.IsEnd, hch, he]
    simp [hq]
  · exact readUnsignedNumeralAux_bound _ r 0 0 a.length hwf hidx2 hq
  · intro p
    rw [ReadWord]
    have hb := readWordAux_bound (r.buffer.length + 1) r p 0 a.length hwf hidx2 hq
    rcases haux : ReadWordAux (r.buffer.length + 1) r p 0 with ⟨len, pr, r2⟩
    rw [haux] at hb
    exact hb
  · rw [SkipParentheses]
    by_cases h40 : r.ch ≠ 40
    · rw [if_pos h40]
      exact hidx2
    · rw [if_neg h40]
      simp only [ne_eq, not_not] at h40
      have hneq : r.index - 1 ≠ a.length := by
        intro he
        rw [hch, he, hq] at h40
        simp at h40
      exact skipParenLoopAux_bound _ r 0 a.length hwf (by omega) hq
  · intro hc
    rw [Skip]
    by_cases he : r.ch = c
    · rw [if_pos he]
      have hneq : r.index - 1 ≠ a.length := by
        intro h2
        rw [hch, h2, hq] at he
        exact hc he.symm
      simp [Next]
      omega
    · rw [if_neg he]
      exact hidx2
  · intro hws
    rw [SkipWhiteSpace]
    by_cases he : ws r.ch = true
    · rw [if_pos he]
      have hne : r.ch ≠ 0 := by
        intro h0
        rw [h0, hws] at he
        exact Bool.false_ne_true he
      have hneq : r.index - 1 ≠ a.length := by
        intro h2
        rw [hch, h2, hq] at hne
        exact hne rfl
      simp [Next]
      omega
    · rw [if_neg he]
      exact hidx2

/-- C10 witness: with a NUL at position 1 of the buffer, the consuming
operations never move the cursor past it. -/
theorem c10_witness :
    (ReadUnsignedNumeral (mkReader [49, 0, 50])).2.index ≤ 2 ∧
    (SkipParentheses (mkReader [40, 0, 41])).2.index ≤ 2 := by
  have h1 := c10_nul_is_end_sentinel [49] [50] (mkReader [49, 0, 50]) 58 (fun _ => false)
    rfl (by decide) (by decide) (by decide) rfl
  have h2 := c10_nul_is_end_sentinel [40] [41] (mkReader [40, 0, 41]) 58 (fun _ => false)
    rfl (by decide) (by decide) (by decide) rfl
  exact ⟨h1.2.1, h2.2.2.2.1⟩

/-- The state of DateParser::TimeComposer: four ordered slots (hour, minute,
second, millisecond), the count of filled slots, and the recorded am/pm hour
offset (kNone if absent). -/
structure TimeComposer where
  comp : List Int
  index : Nat
  hour_offset : Int
  deriving DecidableEq

/-- Number of slots of TimeComposer (kSize). -/
def TimeComposer.kSize : Nat := 4

/-- TimeComposer::Add: store n in the next slot if one is free. -/
def TimeComposer.Add (tc : TimeComposer) (n : Int) : Bool × TimeComposer :=
  if tc.index < TimeComposer.kSize then
    (true, { tc with comp := tc.comp.set tc.index n, index := tc.index + 1 })
  else (false, tc)

/-- The slot-filling while loop shared by TimeComposer::AddFinal and
TimeComposer::Write: store v in every remaining slot. -/
def TimeComposer.FillAux (v : Int) (fuel : Nat) (tc : TimeComposer) : TimeComposer :=
  match fuel with
  | 0 => tc
  | Nat.succ f =>
    if tc.index < TimeComposer.kSize then
      TimeComposer.FillAux v f { tc with comp := tc.comp.set tc.index v, index := tc.index + 1 }
    else tc

/-- TimeComposer::AddFinal: add n, then zero-fill the remaining slots. -/
def TimeComposer.AddFinal (tc : TimeComposer) (n : Int) : Bool × TimeComposer :=
  match tc.Add n with
  | (false, t2) => (false, t2)
  | (true, t2) => (true, TimeComposer.FillAux 0 TimeComposer.kSize t2)

/-- TimeComposer::IsEmpty. -/
def TimeComposer.IsEmpty (tc : TimeComposer) : Bool := decide (tc.index = 0)

/-- The state of DateParser::DayComposer: up to three recorded numbers, their
count, the named month (kNone if absent) and the ISO-order flag. -/
structure DayComposer where
  comp : List Int
  index : Nat
  named_month : Int
  is_iso_date : Bool
  deriving DecidableEq

/-- Number of slots of DayComposer (kSize). -/
def DayComposer.kSize : Nat := 3

/-- DayComposer::Add: record n if fewer than kSize numbers were recorded. -/
def DayComposer.Add (dc : DayComposer) (n : Int) : Bool × DayComposer :=
  if dc.index < DayComposer.kSize then
    (true, { dc with comp := dc.comp.set dc.index n, index := dc.index + 1 })
  else (false, dc)

/-- DayComposer::IsEmpty. -/
def DayComposer.IsEmpty (dc : DayComposer) : Bool := decide (dc.index = 0)

/-- The state of DateParser::TimeZoneComposer: sign, hour and minute of the
offset, each kNone while unset. -/
structure TimeZoneComposer where
  sign : Int
  hour : Int
  minute : Int
  deriving DecidableEq

/-- TimeZoneComposer::IsEmpty. -/
def TimeZoneComposer.IsEmpty (z : TimeZoneComposer) : Bool := decide (z.hour = kNone)

theorem list_int_length_four (l : List Int) (h : l.length = 4) :
    ∃ a b c d, l = [a, b, c, d] := by
  match l, h with
  | [a, b, c, d], _ => exact ⟨a, b, c, d, rfl⟩

theorem list_int_length_three (l : List Int) (h : l.length = 3) :
    ∃ a b c, l = [a, b, c] := by
  match l, h with
  | [a, b, c], _ => exact ⟨a, b, c, rfl⟩

/-- C7: TimeComposer fills its four slots in positional order; Add stores n
in the next free slot and returns true while one is free and returns false
once all four are filled, and a successful AddFinal stores n in the next
free slot and zero-fills every later slot, leaving all four filled. -/
theorem c7_timeComposer_add_addFinal (tc : TimeComposer) (n : Int)
    (h4 : tc.comp.length = 4) :
    (tc.index < TimeComposer.kSize →
      tc.Add n = (true, ⟨tc.comp.set tc.index n, tc.index + 1, tc.hour_offset⟩) ∧
      tc.AddFinal n =
        (true, ⟨tc.comp.take tc.index ++ n :: List.replicate (3 - tc.index) 0,
          TimeComposer.kSize, tc.hour_offset⟩)) ∧
    (TimeComposer.kSize ≤ tc.index →
      tc.Add n = (false, tc) ∧ tc.AddFinal n = (false, tc)) := by
  obtain ⟨comp, idx, ho⟩ := tc
  simp only at h4
  obtain ⟨a, b, c, d, rfl⟩ := list_int_length_four comp h4
  constructor
  · intro hlt
    simp only [TimeComposer.kSize] at hlt
    interval_cases idx <;>
      simp [TimeComposer.Add, TimeComposer.AddFinal, TimeComposer.FillAux, TimeComposer.kSize]
  · intro hge
    simp only [TimeComposer.kSize] at hge
    have : ¬ idx < TimeComposer.kSize := by simp [TimeComposer.kSize]; omega
    constructor
    · simp [TimeComposer.Add, this]
    · simp [TimeComposer.AddFinal, TimeComposer.Add, this]

/-- C7 witness: with one slot filled, Add fills the minute slot and AddFinal
zero-fills second and millisecond; with all four filled, both reject. -/
theorem c7_witness :
    TimeComposer.Add ⟨[9, 5, 6, 7], 1, kNone⟩ 30 = (true, ⟨[9, 30, 6, 7], 2, kNone⟩) ∧
    TimeComposer.AddFinal ⟨[9, 5, 6, 7], 1, kNone⟩ 30 = (true, ⟨[9, 30, 0, 0], 4, kNone⟩) ∧
    TimeComposer.Add ⟨[9, 30, 0, 0], 4, kNone⟩ 8 = (false, ⟨[9, 30, 0, 0], 4, kNone⟩) := by
  have h1 := (c7_timeComposer_add_addFinal ⟨[9, 5, 6, 7], 1, kNone⟩ 30 rfl).1
    (by simp [TimeComposer.kSize])
  have h2 := (c7_timeComposer_add_addFinal ⟨[9, 30, 0, 0], 4, kNone⟩ 8 rfl).2
    (by simp [TimeComposer.kSize])
  exact ⟨by rw [h1.1]; decide, by rw [h1.2]; decide, by rw [h2.1]⟩

/-- C8: DayComposer.Add records n and returns true while fewer than three
numbers are recorded; once three are recorded it returns false and leaves
the recorded numbers and the count unchanged. -/
theorem c8_dayComposer_add (dc : DayComposer) (n : Int) (h3 : dc.comp.length = 3) :
    (dc.index < DayComposer.kSize →
      dc.Add n =
        (true, ⟨dc.comp.set dc.index n, dc.index + 1, dc.named_month, dc.is_iso_date⟩)) ∧
    (DayComposer.kSize ≤ dc.index → dc.Add n = (false, dc)) := by
  constructor
  · intro hlt
    simp [DayComposer.Add, hlt]
  · intro hge
    have : ¬ dc.index < DayComposer.kSize := by omega
    simp [DayComposer.Add, this]

/-- C8 witness: a third number is recorded, a fourth is rejected with the
state unchanged. -/
theorem c8_witness :
    DayComposer.Add ⟨[4, 7, 9], 2, kNone, false⟩ 11 = (true, ⟨[4, 7, 11], 3, kNone, false⟩) ∧
    DayComposer.Add ⟨[4, 7, 11], 3, kNone, false⟩ 5 = (false, ⟨[4, 7, 11], 3, kNone, false⟩) := by
  have h1 := (c8_dayComposer_add ⟨[4, 7, 9], 2, kNone, false⟩ 11 rfl).1
    (by simp [DayComposer.kSize])
  have h2 := (c8_dayComposer_add ⟨[4, 7, 11], 3, kNone, false⟩ 5 rfl).2
    (by simp [DayComposer.kSize])
  exact ⟨by rw [h1]; rfl, by rw [h2]⟩

/-- Modelled from the spec: 2-digit years are windowed into a reference
century (spec section 4.4); the exact pivot is an open question of the spec
(section 9), and this model uses 0-49 to the 2000s and 50-99 to the 1900s;
the choice does not affect any validated range. -/
def windowYear (y : Int) : Int :=
  if 0 ≤ y ∧ y ≤ 49 then y + 2000
  else if 50 ≤ y ∧ y ≤ 99 then y + 1900
  else y

/-- The i-th recorded number of the day composer, with missing numbers
defaulting to 1 (day and month default to 1 when fewer numbers were read). -/
def DayComposer.c (dc : DayComposer) (i : Nat) : Int :=
  (dc.comp.take dc.index).getD i 1

/-- Modelled from the spec: the year/month/day resolution of
DateParser::DayComposer::Write, whose body is not under src/ (spec section
4.4): with a named month the recorded numbers are day and year, the one in
day range first-seen winning as day; with the ISO flag the numbers are year,
month, day in encounter order; otherwise, if the first number is not a
plausible month (greater than 12) the order is day, month, year, else month,
day, year with the year defaulting when only two numbers were recorded. -/
def DayComposer.resolveYMD (dc : DayComposer) : Int × Int × Int :=
  if dc.named_month = kNone then
    if dc.is_iso_date then (dc.c 0, dc.c 1, dc.c 2)
    else if ¬ (dc.c 0 ≤ 12) then (dc.c 2, dc.c 1, dc.c 0)
    else ((if dc.index = 3 then dc.c 2 else 0), dc.c 0, dc.c 1)
  else
    if dc.index = 1 then (0, dc.named_month, dc.c 0)
    else if DayComposer.IsDay (dc.c 0) then (dc.c 1, dc.named_month, dc.c 0)
    else (dc.c 0, dc.named_month, dc.c 1)

/-- Modelled from the spec: DateParser::DayComposer::Write (body not under
src/, spec sections 4.4 and 7): resolution fails when no number was
recorded; the resolved month and day must pass their range checks, the
non-ISO year is windowed, and the month is written 0-indexed. -/
def DayComposer.WriteM (dc : DayComposer) : Option (Int × Int × Int) :=
  if dc.index = 0 then none
  else
    if DayComposer.IsMonth (DayComposer.resolveYMD dc).2.1 &&
        DayComposer.IsDay (DayComposer.resolveYMD dc).2.2 then
      some ((if dc.is_iso_date then (DayComposer.resolveYMD dc).1
             else windowYear (DayComposer.resolveYMD dc).1),
        (DayComposer.resolveYMD dc).2.1 - 1, (DayComposer.resolveYMD dc).2.2)
    else none

/-- The i-th time slot after the unfilled slots default to 0. -/
def TimeComposer.slot (tc : TimeComposer) (i : Nat) : Int :=
  (TimeComposer.FillAux 0 TimeComposer.kSize tc).comp.getD i 0

/-- Modelled from the spec: the hour resolution of
DateParser::TimeComposer::Write (body not under src/, spec section 4.4):
without a recorded am/pm offset the hour is slot 0; with one, slot 0 must be
a valid 12-hour value, 12 mapping to 0 before the offset is added. -/
def TimeComposer.resolveHour (tc : TimeComposer) : Option Int :=
  if tc.hour_offset = kNone then some (tc.slot 0)
  else if TimeComposer.IsHour12 (tc.slot 0) then some (tc.slot 0 % 12 + tc.hour_offset)
  else none

/-- Modelled from the spec: DateParser::TimeComposer::Write (body not under
src/, spec sections 4.4 and 7): the resolved hour and the minute, second and
millisecond slots must pass the range checks of dateparser.h. -/
def TimeComposer.WriteM (tc : TimeComposer) : Option (Int × Int × Int × Int) :=
  (TimeComposer.resolveHour tc).bind (fun h =>
    if TimeComposer.IsHour h && TimeComposer.IsMinute (tc.slot 1) &&
        TimeComposer.IsSecond (tc.slot 2) && TimeComposer.IsMillisecond (tc.slot 3) then
      some (h, tc.slot 1, tc.slot 2, tc.slot 3)
    else none)

/-- Modelled from the spec: DateParser::TimeZoneComposer::Write (body not
under src/, spec section 4.4): emit sign * (hour * 3600 + minute * 60)
seconds, or leave the slot unset (none) when the composer is empty. -/
def TimeZoneComposer.WriteM (z : TimeZoneComposer) : Option Int :=
  if z.IsEmpty then none
  else some (z.sign * (z.hour * 3600 + z.minute * 60))

/-- The 8-slot output record of DateParser::Parse: year, month, day, hour,
minute, second, millisecond, and the UTC offset in seconds with none as the
null sentinel for a missing timezone. -/
structure Output where
  year : Int
  month : Int
  day : Int
  hour : Int
  minute : Int
  second : Int
  millisecond : Int
  utc_offset : Option Int
  deriving DecidableEq

/-- Modelled from the spec: the successful tail of DateParser::Parse (body
not under src/, spec sections 4.5 and 6): each composer validates and writes
its fields; if any write fails, no record is produced. -/
def ParseWrite (dc : DayComposer) (tc : TimeComposer) (z : TimeZoneComposer) : Option Output :=
  (DayComposer.WriteM dc).bind (fun ymd =>
    (TimeComposer.WriteM tc).bind (fun hms =>
      some ⟨ymd.1, ymd.2.1, ymd.2.2, hms.1, hms.2.1, hms.2.2.1, hms.2.2.2,
        TimeZoneComposer.WriteM z⟩))

/-- In-range contents of the output record as stated by the spec: month in
0-11, day 1-31, hour 0-23, minute and second 0-59, millisecond 0-999; the
year is an integer and the offset slot is an integer or the null sentinel by
type. -/
def ValidOutput (o : Output) : Prop :=
  0 ≤ o.month ∧ o.month ≤ 11 ∧ 1 ≤ o.day ∧ o.day ≤ 31 ∧
  0 ≤ o.hour ∧ o.hour ≤ 23 ∧ 0 ≤ o.minute ∧ o.minute ≤ 59 ∧
  0 ≤ o.second ∧ o.second ≤ 59 ∧ 0 ≤ o.millisecond ∧ o.millisecond ≤ 999

theorem int32_getD (l : List Int) (i : Nat) (d0 : Int)
    (hl : ∀ x ∈ l, Int32 x) (hd : Int32 d0) : Int32 (l.getD i d0) := by
  induction l generalizing i with
  | nil => cases i <;> exact hd
  | cons x t ih =>
    cases i with
    | zero => exact hl x (by simp)
    | succ j => exact ih j (fun y hy => hl y (by simp [hy]))

theorem int32_c (dc : DayComposer) (i : Nat) (hcomp : ∀ x ∈ dc.comp, Int32 x) :
    Int32 (dc.c i) :=
  int32_getD _ i 1 (fun x hx => hcomp x (List.take_subset _ _ hx)) (by constructor <;> decide)

theorem fillAux_succ (v : Int) (f : Nat) (tc : TimeComposer) :
    TimeComposer.FillAux v (f + 1) tc =
      (if tc.index < TimeComposer.kSize then
        TimeComposer.FillAux v f ⟨tc.comp.set tc.index v, tc.index + 1, tc.hour_offset⟩
      else tc) := rfl

theorem fillAux_comp_mem (v : Int) (f : Nat) :
    ∀ (tc : TimeComposer) (x : Int),
    x ∈ (TimeComposer.FillAux v f tc).comp → x ∈ tc.comp ∨ x = v := by
  induction f with
  | zero => intro tc x hx; exact Or.inl hx
  | succ f ih =>
    intro tc x hx
    rw [fillAux_succ] at hx
    by_cases h : tc.index < TimeComposer.kSize
    · rw [if_pos h] at hx
      rcases ih _ x hx with hm | hv
      · rcases List.mem_or_eq_of_mem_set hm with hm2 | hv2
        · exact Or.inl hm2
        · exact Or.inr hv2
      · exact Or.inr hv
    · rw [if_neg h] at hx
      exact Or.inl hx

theorem int32_slot (tc : TimeComposer) (i : Nat) (hcomp : ∀ x ∈ tc.comp, Int32 x) :
    Int32 (tc.slot i) := by
  refine int32_getD _ i 0 (fun x hx => ?_) (by constructor <;> decide)
  rcases fillAux_comp_mem 0 TimeComposer.kSize tc x hx with hm | hv
  · exact hcomp x hm
  · rw [hv]; constructor <;> decide

theorem isMonth_range (m : Int) (h : Int32 m) (hm : DayComposer.IsMonth m = true) :
    1 ≤ m ∧ m ≤ 12 :=
  (between_true_iff m 1 12 h.1 (by rcases h with ⟨h1, h2⟩; omega)
    (by omega) (by omega) (by omega)).mp hm

theorem isDay_range (d : Int) (h : Int32 d) (hd : DayComposer.IsDay d = true) :
    1 ≤ d ∧ d ≤ 31 :=
  (between_true_iff d 1 31 h.1 (by rcases h with ⟨h1, h2⟩; omega)
    (by omega) (by omega) (by omega)).mp hd

theorem isHour_range (x : Int) (h1 : -2147483648 ≤ x) (h2 : x < 4294967296)
    (hx : TimeComposer.IsHour x = true) : 0 ≤ x ∧ x ≤ 23 :=
  (between_true_iff x 0 23 h1 (by omega) (by omega) (by omega) (by omega)).mp hx

theorem isMinute_range (x : Int) (h : Int32 x) (hx : TimeComposer.IsMinute x = true) :
    0 ≤ x ∧ x ≤ 59 :=
  (between_true_iff x 0 59 h.1 (by rcases h with ⟨h1, h2⟩; omega)
    (by omega) (by omega) (by omega)).mp hx

theorem isSecond_range (x : Int) (h : Int32 x) (hx : TimeComposer.IsSecond x = true) :
    0 ≤ x ∧ x ≤ 59 :=
  (between_true_iff x 0 59 h.1 (by rcases h with ⟨h1, h2⟩; omega)
    (by omega) (by omega) (by omega)).mp hx

theorem isMillisecond_range (x : Int) (h : Int32 x)
    (hx : TimeComposer.IsMillisecond x = true) : 0 ≤ x ∧ x ≤ 999 :=
  (between_true_iff x 0 999 h.1 (by rcases h with ⟨h1, h2⟩; omega)
    (by omega) (by omega) (by omega)).mp hx

theorem isHour12_range (x : Int) (h : Int32 x) (hx : TimeComposer.IsHour12 x = true) :
    0 ≤ x ∧ x ≤ 12 :=
  (between_true_iff x 0 12 h.1 (by rcases h with ⟨h1, h2⟩; omega)
    (by omega) (by omega) (by omega)).mp hx

theorem resolveYMD_int32 (dc : DayComposer)
    (hcomp : ∀ x ∈ dc.comp, Int32 x) (hnm : Int32 dc.named_month) :
    Int32 (DayComposer.resolveYMD dc).2.1 ∧ Int32 (DayComposer.resolveYMD dc).2.2 := by
  have hc0 := int32_c dc 0 hcomp
  have hc1 := int32_c dc 1 hcomp
  have hc2 := int32_c dc 2 hcomp
  rw [DayComposer.resolveYMD]
  split_ifs <;>
    first
      | exact ⟨hc1, hc2⟩
      | exact ⟨hc1, hc0⟩
      | exact ⟨hc0, hc1⟩
      | exact ⟨hnm, hc0⟩
      | exact ⟨hnm, hc1⟩

theorem dayWriteM_valid (dc : DayComposer) (y mo d : Int)
    (hcomp : ∀ x ∈ dc.comp, Int32 x) (hnm : Int32 dc.named_month)
    (hw : DayComposer.WriteM dc = some (y, mo, d)) :
    0 ≤ mo ∧ mo ≤ 11 ∧ 1 ≤ d ∧ d ≤ 31 := by
  rw [DayComposer.WriteM] at hw
  by_cases h0 : dc.index = 0
  · rw [if_pos h0] at hw
    exact absurd hw (by simp)
  · rw [if_neg h0] at hw
    split at hw
    · rename_i hcond
      simp only [Bool.and_eq_true] at hcond
      obtain ⟨hi32m, hi32d⟩ := resolveYMD_int32 dc hcomp hnm
      have hm := isMonth_range _ hi32m hcond.1
      have hd := isDay_range _ hi32d hcond.2
      simp only [Option.some.injEq, Prod.mk.injEq] at hw
      obtain ⟨_, hmo, hdd⟩ := hw
      omega
    · exact absurd hw (by simp)

theorem resolveHour_bounds (tc : TimeComposer) (h2 : Int)
    (hcomp : ∀ x ∈ tc.comp, Int32 x) (hho : Int32 tc.hour_offset)
    (hr : TimeComposer.resolveHour tc = some h2) :
    -2147483648 ≤ h2 ∧ h2 < 4294967296 := by
  have hs := int32_slot tc 0 hcomp
  rw [TimeComposer.resolveHour] at hr
  split at hr
  · simp only [Option.some.injEq] at hr
    rcases hs with ⟨hs1, hs2⟩
    omega
  · split at hr
    · simp only [Option.some.injEq] at hr
      have hmod : 0 ≤ tc.slot 0 % 12 ∧ tc.slot 0 % 12 < 12 :=
        ⟨Int.emod_nonneg _ (by norm_num), Int.emod_lt_of_pos _ (by norm_num)⟩
      rcases hho with ⟨hh1, hh2⟩
      omega
    · exact absurd hr (by simp)

theorem timeWriteM_valid (tc : TimeComposer) (h mi se ms : Int)
    (hcomp : ∀ x ∈ tc.comp, Int32 x) (hho : Int32 tc.hour_offset)
    (hw : TimeComposer.WriteM tc = some (h, mi, se, ms)) :
    0 ≤ h ∧ h ≤ 23 ∧ 0 ≤ mi ∧ mi ≤ 59 ∧ 0 ≤ se ∧ se ≤ 59 ∧ 0 ≤ ms ∧ ms ≤ 999 := by
  rw [TimeComposer.WriteM] at hw
  rcases hr : TimeComposer.resolveHour tc with _ | h2
  · rw [hr] at hw
    exact Option.noConfusion hw
  · rw [hr] at hw
    simp only [Option.some_bind] at hw
    split at hw
    · rename_i hcond
      simp only [Bool.and_eq_true] at hcond
      obtain ⟨⟨⟨hch, hcmi⟩, hcse⟩, hcms⟩ := hcond
      obtain ⟨hb1, hb2⟩ := resolveHour_bounds tc h2 hcomp hho hr
      have hhr := isHour_range h2 hb1 hb2 hch
      have hmir := isMinute_range _ (int32_slot tc 1 hcomp) hcmi
      have hser := isSecond_range _ (int32_slot tc 2 hcomp) hcse
      have hmsr := isMillisecond_range _ (int32_slot tc 3 hcomp) hcms
      simp only [Option.some.injEq, Prod.mk.injEq] at hw
      obtain ⟨hh, hmi, hse, hms⟩ := hw
      omega
    · exact absurd hw (by simp)

/-- C1: whenever the modelled Parse writes succeed and produce an output
record, every slot of the record is in range: month 0-11, day 1-31, hour
0-23, minute and second 0-59, millisecond 0-999, the year an integer and the
offset an integer or the null sentinel; on failure no record is produced, so
nothing is guaranteed about output contents. -/
theorem c1_parse_success_valid (dc : DayComposer) (tc : TimeComposer)
    (z : TimeZoneComposer) (o : Output)
    (hdc : ∀ x ∈ dc.comp, Int32 x) (hnm : Int32 dc.named_month)
    (htc : ∀ x ∈ tc.comp, Int32 x) (hho : Int32 tc.hour_offset)
    (hp : ParseWrite dc tc z = some o) : ValidOutput o := by
  rw [ParseWrite] at hp
  rcases hd : DayComposer.WriteM dc with _ | ⟨y, mo, d⟩
  · rw [hd] at hp
    exact absurd hp (by simp)
  · rw [hd] at hp
    rcases ht : TimeComposer.WriteM tc with _ | ⟨h, mi, se, ms⟩
    · rw [ht] at hp
      exact Option.noConfusion hp
    · rw [ht] at hp
      simp only [Option.some_bind, Option.some.injEq] at hp
      have hday := dayWriteM_valid dc y mo d hdc hnm hd
      have htime := timeWriteM_valid tc h mi se ms htc hho ht
      rw [← hp]
      rw [ValidOutput]
      refine ⟨?_, ?_, ?_, ?_, ?_, ?_, ?_, ?_, ?_, ?_, ?_, ?_⟩ <;> simp <;> omega

/-- C1 witness: the modelled writes at concrete composer states produce an
output record, and the record is valid. -/
theorem c1_witness :
    ParseWrite ⟨[12, 25, 2013], 3, kNone, false⟩ ⟨[0, 0, 0, 0], 0, kNone⟩
        ⟨kNone, kNone, kNone⟩ =
      some ⟨2013, 11, 25, 0, 0, 0, 0, none⟩ ∧
    ValidOutput ⟨2013, 11, 25, 0, 0, 0, 0, none⟩ := by
  constructor
  · decide
  · exact c1_parse_success_valid ⟨[12, 25, 2013], 3, kNone, false⟩ ⟨[0, 0, 0, 0], 0, kNone⟩
      ⟨kNone, kNone, kNone⟩ ⟨2013, 11, 25, 0, 0, 0, 0, none⟩
      (by decide) (by decide) (by decide) (by decide) (by decide)

end DateParser
